import Mathlib

/-!
Verification development for the medical-term replacement engine
(`MedicalTermReplacementService`) and its repository (`DatabaseManager`).

JavaScript strings are modelled as lists of characters (`JStr`); the
ASCII fragment of `toLowerCase`/`trim` is modelled (all concrete inputs
used below are ASCII).  Machine numbers that stay integral are `Nat`/`Int`;
the two floating-point threshold comparisons in `_checkMemoryUsage` are
modelled as exact rational comparisons (`heapUsed/heapTotal > 0.85` as
`20*heapUsed > 17*heapTotal`, `cacheLimit * 0.5` as `cacheLimit / 2`),
which agree with the IEEE doubles at every input considered here.
Asynchronous repository calls and the host's `JSON.parse` are oracles:
explicit parameters giving each call's outcome (`Except` for fallible
calls).  Elided method bodies (marked "implementación igual que antes"
in the source) are modelled from the spec and carry a doc comment
saying so.
-/

namespace Signia

/-- A JavaScript string, as a list of characters. -/
abbrev JStr := List Char

/-- `String.prototype.toLowerCase`, on its ASCII fragment
(`Char.toLower` lowers exactly the letters A-Z). -/
def jsToLower (s : JStr) : JStr := s.map Char.toLower

/-- `String.prototype.trim`: drop leading and trailing whitespace. -/
def jsTrim (s : JStr) : JStr :=
  ((s.dropWhile Char.isWhitespace).reverse.dropWhile Char.isWhitespace).reverse

/-- SQLite `COLLATE NOCASE` equality: compare after folding the ASCII
letters A-Z (SQLite's NOCASE folds only ASCII). -/
def nocaseEq (a b : JStr) : Bool := a.map Char.toLower == b.map Char.toLower

/-- The `variants` field of a cached term object.  Rows fetched from the
repository carry the raw TEXT column (`vstr`); the code also tolerates an
already-parsed array (`varr`) and `null`/`undefined` (`vnull`). -/
inductive VariantsField where
  | vnull : VariantsField
  | varr (vs : List JStr) : VariantsField
  | vstr (s : JStr) : VariantsField
deriving DecidableEq

/-- A term record as held in the engine cache
(`{id, heard_term, correct_term, frequency, ...}`). -/
structure TermRecord where
  id : Nat
  heard_term : JStr
  correct_term : JStr
  specialty : Option JStr
  modality : Option JStr
  frequency : Int
  variants : VariantsField
  context_words : JStr
deriving DecidableEq

/-- Outcome of the host's `JSON.parse` on a (non-empty) string, as an
oracle: `.error` models a thrown SyntaxError (malformed JSON),
`.ok none` a successful parse to a non-array value, and `.ok (some vs)`
a successful parse to an array of strings. -/
abbrev JsonParseOracle := JStr → Except Unit (Option (List JStr))

/-- `typeof term.variants === 'string' ? JSON.parse(term.variants || '[]')
: (term.variants || [])` followed by the `Array.isArray` test:
`.error` = the parse threw, `.ok none` = not an array (loop skipped),
`.ok (some vs)` = the array of variants.  `JSON.parse('[]')` (the falsy
empty-string case) always yields `[]`. -/
def parseVariants (jp : JsonParseOracle) : VariantsField → Except Unit (Option (List JStr))
  | .vnull => .ok (some [])
  | .varr vs => .ok (some vs)
  | .vstr s => if s = [] then .ok (some []) else jp s

/-- The three in-memory indices (`termIndexByLength`,
`termIndexByFirstChar`, `frequentTermsCache`), as insertion-ordered
association lists. -/
structure Indices where
  byLength : List (Nat × List TermRecord)
  byFirstChar : List (JStr × List TermRecord)
  frequent : List (JStr × TermRecord)
deriving DecidableEq

def emptyIndices : Indices := ⟨[], [], []⟩

/-- `if (!m[k]) m[k] = []; m[k].push(t)` on an association list. -/
def pushAt {κ : Type} [DecidableEq κ] (m : List (κ × List TermRecord)) (k : κ)
    (t : TermRecord) : List (κ × List TermRecord) :=
  match m with
  | [] => [(k, [t])]
  | (k₁, ts) :: rest =>
      if k₁ = k then (k₁, ts ++ [t]) :: rest else (k₁, ts) :: pushAt rest k t

/-- `m[k] = t` on an association list: replace in place, else append. -/
def setKey (m : List (JStr × TermRecord)) (k : JStr) (t : TermRecord) :
    List (JStr × TermRecord) :=
  match m with
  | [] => [(k, t)]
  | (k₁, t₁) :: rest =>
      if k₁ = k then (k₁, t) :: rest else (k₁, t₁) :: setKey rest k t

/-- `m[k]` on an association list. -/
def lookupKey (m : List (JStr × TermRecord)) (k : JStr) : Option TermRecord :=
  match m with
  | [] => none
  | (k₁, t₁) :: rest => if k₁ = k then some t₁ else lookupKey rest k

/-- The inner `for (const variant of variants) if (variant)
frequentTermsCache[variant.toLowerCase()] = term` loop. -/
def addVariants (t : TermRecord) (idx : Indices) (vs : List JStr) : Indices :=
  vs.foldl (fun acc v =>
    if v = [] then acc
    else { acc with frequent := setKey acc.frequent (jsToLower v) t }) idx

/-- One iteration of the `_rebuildTermIndices` loop for term `t`:
push into the by-length and by-first-char indices; if `frequency > 5`,
register the lowercase heard term and every truthy variant in
`frequentTermsCache`.  The boolean reports whether `JSON.parse` threw
(leaving the indices in the state reached so far). -/
def indexTerm (jp : JsonParseOracle) (idx : Indices) (t : TermRecord) : Indices × Bool :=
  let hl := jsToLower t.heard_term
  let idx₁ : Indices := { idx with byLength := pushAt idx.byLength hl.length t }
  let idx₂ : Indices := { idx₁ with byFirstChar := pushAt idx₁.byFirstChar (hl.take 1) t }
  if 5 < t.frequency then
    let idx₃ : Indices := { idx₂ with frequent := setKey idx₂.frequent hl t }
    match parseVariants jp t.variants with
    | .error _ => (idx₃, true)
    | .ok none => (idx₃, false)
    | .ok (some vs) => (addVariants t idx₃ vs, false)
  else (idx₂, false)

/-- The `for (const term of this.cachedTerms)` loop of
`_rebuildTermIndices`, starting from indices `acc`; stops at the first
term whose variants parse throws, reporting the partial indices and an
error flag. -/
def rebuildGo (jp : JsonParseOracle) (acc : Indices) : List TermRecord → Indices × Bool
  | [] => (acc, false)
  | t :: ts =>
      match indexTerm jp acc t with
      | (acc₁, true) => (acc₁, true)
      | (acc₁, false) => rebuildGo jp acc₁ ts

/-- `_rebuildTermIndices` run on a term list: resets the three indices
and refills them; the flag reports an escaped `JSON.parse` exception. -/
def rebuildRun (jp : JsonParseOracle) (terms : List TermRecord) : Indices × Bool :=
  rebuildGo jp emptyIndices terms

/-- `_rebuildTermIndices` as a fallible computation: the indices it
produces when it completes, or an error when it throws. -/
def rebuildTermIndices (jp : JsonParseOracle) (terms : List TermRecord) :
    Except Unit Indices :=
  match rebuildRun jp terms with
  | (idx, false) => .ok idx
  | (_, true) => .error ()

/-! ### Service configuration and state -/

/-- Construction-time options of `MedicalTermReplacementService` that the
claims touch, plus the `JSON.parse` oracle.  Defaults as in the
constructor (`cacheLimit` 1000, `cacheUpdateInterval` 10 min in ms,
`memoryWarningThreshold` 0.8 as the exact rational 4/5,
`maxReplacementHistory` 100). -/
structure SvcConfig where
  cacheLimit : Nat := 1000
  cacheUpdateInterval : Nat := 600000
  memoryWarningThreshold : ℚ := 4/5
  maxReplacementHistory : Nat := 100
  jp : JsonParseOracle

/-- The mutable state of the service that the claims touch. -/
structure SvcState where
  cachedTerms : List TermRecord
  cacheLastUpdated : Nat
  hasTriggeredWarning : Bool
  idx : Indices
  /-- `frequencyUpdateBatch`: term id ↦ pending increment count. -/
  freqBatch : List (Nat × Nat)
deriving DecidableEq

/-- The cache/index consistency invariant of the spec: the three derived
indices are exactly what `_rebuildTermIndices` would produce from the
current `cachedTerms` collection (in particular, rebuilding it succeeds). -/
def indicesInSync (jp : JsonParseOracle) (st : SvcState) : Prop :=
  rebuildRun jp st.cachedTerms = (st.idx, false)

instance (jp : JsonParseOracle) (st : SvcState) : Decidable (indicesInSync jp st) := by
  unfold indicesInSync; infer_instance

/-- Descending-by-frequency order used by
`sort((a, b) => (b.frequency || 0) - (a.frequency || 0))`. -/
def freqGE (a b : TermRecord) : Prop := b.frequency ≤ a.frequency

instance : DecidableRel freqGE := fun a b => by unfold freqGE; infer_instance

instance : IsTotal TermRecord freqGE := ⟨fun a b => le_total b.frequency a.frequency⟩

instance : IsTrans TermRecord freqGE := ⟨fun _ _ _ h h₁ => le_trans h₁ h⟩

/-- The stable descending-by-frequency sort (JavaScript `Array.sort` is
stable, and a stable sort under a total preorder has a unique output, so
insertion sort models it exactly). -/
def sortFreq (l : List TermRecord) : List TermRecord := l.insertionSort freqGE

/-- `_reduceCacheSize(newLimit)`: no-op when the cache is already within
the limit; otherwise sort by frequency descending, keep the first
`newLimit` terms and rebuild the indices.  The boolean reports whether
the index rebuild threw (on malformed variants JSON), in which case the
partial indices are left in place and the exception escapes to the
caller. -/
def reduceCacheSize (cfg : SvcConfig) (st : SvcState) (newLimit : Nat) :
    SvcState × Bool :=
  if st.cachedTerms.length ≤ newLimit then (st, false)
  else
    let kept := (sortFreq st.cachedTerms).take newLimit
    let r := rebuildRun cfg.jp kept
    ({ st with cachedTerms := kept, idx := r.1 }, r.2)

/-- Modelled from the spec: `clearCache` is elided in the source
("implementación igual que antes"); per §4.1 it empties the cache and
all indices and does not touch the Repository. -/
def clearCache (st : SvcState) : SvcState :=
  { st with cachedTerms := [], idx := emptyIndices }

/-- One sample of `process.memoryUsage()`, in bytes. -/
structure MemStats where
  heapUsed : Nat
  heapTotal : Nat
  rss : Nat

/-- `Math.round(memoryUsage.rss / 1024 / 1024)` (round half up). -/
def rssMB (m : MemStats) : Nat := (2 * m.rss + 1048576) / 2097152

/-- `heapUsagePercentage > 0.85` with
`heapUsagePercentage = heapTotal > 0 ? heapUsed/heapTotal : 0`,
as the exact comparison `20*heapUsed > 17*heapTotal`. -/
def heapHigh (m : MemStats) : Bool :=
  decide (0 < m.heapTotal) && decide (17 * m.heapTotal < 20 * m.heapUsed)

/-- The heap trigger of `_checkMemoryUsage`:
`heapUsagePercentage > 0.85 && cachedTerms.length > cacheLimit * 0.5`. -/
def heapTrigger (cfg : SvcConfig) (st : SvcState) (m : MemStats) : Bool :=
  heapHigh m && decide (cfg.cacheLimit < 2 * st.cachedTerms.length)

/-- `_checkMemoryUsage`, with the given memory sample.  `flushOk` is the
outcome oracle of the fire-and-forget `_flushFrequencyBatch` (modelled
from the spec §4.4: success applies the pending increments to the
repository and clears the batch; failure is logged and leaves the batch).
The whole body is wrapped in a `try`/`catch`, so an index rebuild that
throws inside `_reduceCacheSize` is swallowed, skipping the flush. -/
def checkMemoryUsage (cfg : SvcConfig) (st : SvcState) (m : MemStats)
    (flushOk : Bool) : SvcState :=
  if heapTrigger cfg st m then
    let r := reduceCacheSize cfg st (cfg.cacheLimit / 2)
    if r.2 then r.1
    else if flushOk then { r.1 with freqBatch := [] } else r.1
  else if 500 < rssMB m then clearCache st
  else st

/-- Oracles for one `refreshCache` call: the outcome of the pending
`_flushFrequencyBatch` (elided in source; modelled from spec §4.4 as
apply-increments-then-clear on success), the outcome of
`dbManager.getMostFrequentTerms`, and the memory sample consumed by the
trailing `_checkMemoryUsage` together with its own flush outcome. -/
structure RefreshOracles where
  flushOk : Bool
  fetch : Except Unit (List TermRecord)
  mem : MemStats
  memFlushOk : Bool

/-- The early-return staleness guard of `refreshCache`:
`cachedTerms.length > 0 && now - cacheLastUpdated < cacheUpdateInterval`. -/
def cacheFresh (cfg : SvcConfig) (st : SvcState) (now : Nat) : Bool :=
  decide (0 < st.cachedTerms.length) &&
    decide (now - st.cacheLastUpdated < cfg.cacheUpdateInterval)

/-- The near-capacity warning flag update of `refreshCache`
(lines after the index rebuild): set once when size reaches
`cacheLimit * memoryWarningThreshold`, cleared when back under. -/
def updateWarningFlag (cfg : SvcConfig) (st : SvcState) : SvcState :=
  if (st.cachedTerms.length : ℚ) ≥ (cfg.cacheLimit : ℚ) * cfg.memoryWarningThreshold then
    if st.hasTriggeredWarning then st else { st with hasTriggeredWarning := true }
  else { st with hasTriggeredWarning := false }

/-- `refreshCache`: early-return when fresh; otherwise flush the pending
batch, fetch the top `cacheLimit` terms, replace the cache wholesale,
stamp the cache age, rebuild indices, update the warning flag and run a
memory check.  Its `catch` swallows every failure, resetting to an empty
cache (with rebuilt empty indices) only when the cache was empty before
the call.  The `dbManager?.getMostFrequentTerms` availability guard is
not modelled (the repository always exposes it), and a null fetch result
(`newTerms || []`) is folded into the oracle returning `.ok []`. -/
def refreshCache (cfg : SvcConfig) (st : SvcState) (o : RefreshOracles)
    (now : Nat) : SvcState :=
  if cacheFresh cfg st now then st
  else
    let oldSize := st.cachedTerms.length
    if !o.flushOk then
      -- `_flushFrequencyBatch` threw: caught; batch untouched
      if oldSize = 0 then { st with cachedTerms := [], idx := emptyIndices } else st
    else
      let st₀ : SvcState := { st with freqBatch := [] }
      match o.fetch with
      | .error _ =>
          if oldSize = 0 then { st₀ with cachedTerms := [], idx := emptyIndices } else st₀
      | .ok newTerms =>
          let r := rebuildRun cfg.jp newTerms
          let st₁ : SvcState :=
            { st₀ with cachedTerms := newTerms, cacheLastUpdated := now, idx := r.1 }
          if r.2 then
            -- `_rebuildTermIndices` threw: caught; cache emptied only if it was empty before
            if oldSize = 0 then { st₁ with cachedTerms := [], idx := emptyIndices } else st₁
          else
            checkMemoryUsage cfg (updateWarningFlag cfg st₁) o.mem o.memFlushOk

/-! ### Text processing -/

/-- A `ReplacementRecord`: the source span (`textIndices`, an optional
`{start, end}` pair of offsets), the original fragment, the replacement
text, and the full-text offset stamped by `processText`. -/
structure Replacement where
  textIndices : Option (Nat × Nat)
  original : JStr
  replacement : JStr
  originalFullTextOffset : Nat
deriving DecidableEq

/-- The per-unit offset translation of `processText`:
`rep.textIndices.start += off; rep.textIndices.end += off;
rep.originalFullTextOffset += off` (addition, so that nested
translations compose; the source assigns the cumulative offset, which
coincides because inner offsets start from 0). -/
def addOffset (off : Nat) (r : Replacement) : Replacement :=
  { r with
    textIndices := r.textIndices.map (fun p => (p.1 + off, p.2 + off)),
    originalFullTextOffset := r.originalFullTextOffset + off }

/-- Sets a record's full-text offset to the local base (the source's
`rep.originalFullTextOffset = currentOffset` for the first unit, where
`currentOffset = 0`). -/
def atBase (r : Replacement) : Replacement := { r with originalFullTextOffset := 0 }

/-- The sequential unit-processing loop of `processText` (lines building
`processedText`, `allReplacements` and `currentOffset`), recast as a
recursion over the list of units: process each unit with `f`,
concatenate outputs, and shift each unit's replacement offsets by the
total ORIGINAL length of the preceding units.  Any unit failure escapes
(to `processText`'s `catch`). -/
def processSegments (f : JStr → Except Unit (JStr × List Replacement)) :
    List JStr → Except Unit (JStr × List Replacement)
  | [] => .ok ([], [])
  | u :: rest =>
      match f u with
      | .error e => .error e
      | .ok (pu, reps) =>
          match processSegments f rest with
          | .error e => .error e
          | .ok (pt, rreps) =>
              .ok (pu ++ pt, reps.map atBase ++ rreps.map (addOffset u.length))

/-- Fixed-size blocks of `n` characters (the last may be shorter). -/
def chunks (n : Nat) : JStr → List JStr
  | [] => []
  | c :: rest => (c :: rest.take (n - 1)) :: chunks n (rest.drop (n - 1))
termination_by t => t.length
decreasing_by simp [List.length_drop]; omega

/-- Modelled from the spec: `_processLargeText` is elided in the source
("implementación igual que antes"); per §4.3 it splits the text into
fixed-size blocks, processes each independently (here: through the same
split-into-sentences pipeline), concatenates the results and translates
per-block offsets into offsets of the original full text. -/
def processLargeText (split : JStr → List JStr)
    (f : JStr → Except Unit (JStr × List Replacement)) (blockSize : Nat)
    (text : JStr) : Except Unit (JStr × List Replacement) :=
  processSegments (fun block => processSegments f (split block)) (chunks blockSize text)

/-- Modelled from the spec: `_recordReplacements` is elided in the
source; per §3/§4.3 it appends the replacements to a bounded history
(capacity `maxReplacementHistory`, oldest evicted first). -/
def recordReplacements (cfg : SvcConfig) (hist reps : List Replacement) :
    List Replacement :=
  let h := hist ++ reps
  h.drop (h.length - cfg.maxReplacementHistory)

/-- The body of `processText`'s `try` block after the cache refresh:
the large-text block path when `text.length > 15000` (block size 10000),
otherwise the split-into-sentences path.  `split` is
`_splitIntoSentences` (elided in source; modelled from spec §4.3 as a
finite segmentation of the text) and `proc` is `_processSentence`
(elided; an oracle returning the processed sentence and its local
replacement records, or an internal failure). -/
def processTextCore (split : JStr → List JStr)
    (proc : JStr → Option JStr → Option JStr → Except Unit (JStr × List Replacement))
    (text : JStr) (specialty modality : Option JStr) :
    Except Unit (JStr × List Replacement) :=
  if 15000 < text.length then
    processLargeText split (fun u => proc u specialty modality) 10000 text
  else
    processSegments (fun u => proc u specialty modality) (split text)

/-- `processText(text, specialty, modality)`: empty or whitespace-only
input is returned unchanged; otherwise the cache is refreshed (its own
failures are swallowed inside `refreshCache`) and the core pipeline
runs; the surrounding `catch` turns any internal failure into the
original text with an empty replacement list.  Returns the result
together with the state after the call (including the replacement
history, recorded only on the successful sentence path, as in the
source).  `hist` is the current `replacementHistory`. -/
def processText (cfg : SvcConfig) (split : JStr → List JStr)
    (proc : JStr → Option JStr → Option JStr → Except Unit (JStr × List Replacement))
    (st : SvcState) (hist : List Replacement) (o : RefreshOracles) (now : Nat)
    (text : JStr) (specialty modality : Option JStr) :
    (JStr × List Replacement) × SvcState × List Replacement :=
  if text = [] ∨ jsTrim text = [] then ((text, []), st, hist)
  else
    let st₁ := refreshCache cfg st o now
    if 15000 < text.length then
      match processTextCore split proc text specialty modality with
      | .ok r => (r, st₁, hist)
      | .error _ => ((text, []), st₁, hist)
    else
      match processTextCore split proc text specialty modality with
      | .ok r => (r, st₁, recordReplacements cfg hist r.2)
      | .error _ => ((text, []), st₁, hist)

/-! ### Repository (`DatabaseManager`): the `medical_terms` table -/

/-- A row of `medical_terms` (`id` AUTOINCREMENT primary key,
`heard_term` UNIQUE COLLATE NOCASE, `frequency` INTEGER DEFAULT 1,
`variants`/`context_words` JSON TEXT). -/
structure DbRow where
  id : Nat
  heard_term : JStr
  correct_term : JStr
  specialty : Option JStr
  modality : Option JStr
  frequency : Int
  variants : JStr
  context_words : JStr
deriving DecidableEq

/-- The `medical_terms` table: its rows in insertion order, plus the
next AUTOINCREMENT id. -/
structure DbTable where
  rows : List DbRow
  nextId : Nat
deriving DecidableEq

/-- The schema's uniqueness constraint: no two rows share a
NOCASE-equal `heard_term`. -/
def heardUnique (tb : DbTable) : Prop :=
  tb.rows.Pairwise (fun r q => nocaseEq r.heard_term q.heard_term = false)

/-- The row update performed by the `ON CONFLICT(heard_term) DO UPDATE`
clause: overwrite `correct_term`, `specialty`, `modality`, `variants`,
`context_words`; increment `frequency`. -/
def conflictUpdate (correct : JStr) (sp mo : Option JStr) (vj cj : JStr)
    (r : DbRow) : DbRow :=
  { r with correct_term := correct, specialty := sp, modality := mo,
           variants := vj, context_words := cj, frequency := r.frequency + 1 }

/-- Walk the rows looking for a NOCASE conflict on `key`; update the
conflicting row in place, returning its id. -/
def upsertRows (key correct : JStr) (sp mo : Option JStr) (vj cj : JStr) :
    List DbRow → Option Nat × List DbRow
  | [] => (none, [])
  | r :: rs =>
      if nocaseEq r.heard_term key then
        (some r.id, conflictUpdate correct sp mo vj cj r :: rs)
      else
        let p := upsertRows key correct sp mo vj cj rs
        (p.1, r :: p.2)

/-- `addOrUpdateMedicalTerm(heardTerm, correctTerm, specialty, modality,
variants, contextWords)`: lowercase and trim the heard term, then
`INSERT ... frequency 1 ... ON CONFLICT(heard_term) DO UPDATE ...
RETURNING id`.  `vj`/`cj` are the `JSON.stringify` serializations of the
variants and context words (opaque here).  Returns the row id and the
new table. -/
def dbAddOrUpdateMedicalTerm (tb : DbTable) (heard correct : JStr)
    (sp mo : Option JStr) (vj cj : JStr) : Nat × DbTable :=
  let key := jsTrim (jsToLower heard)
  match upsertRows key (jsTrim correct) sp mo vj cj tb.rows with
  | (some i, rows₁) => (i, { tb with rows := rows₁ })
  | (none, _) =>
      (tb.nextId,
       { rows := tb.rows ++
           [{ id := tb.nextId, heard_term := key, correct_term := jsTrim correct,
              specialty := sp, modality := mo, frequency := 1,
              variants := vj, context_words := cj }],
         nextId := tb.nextId + 1 })

/-- Descending-by-frequency order on rows, for
`ORDER BY frequency DESC`. -/
def rowFreqGE (a b : DbRow) : Prop := b.frequency ≤ a.frequency

instance : DecidableRel rowFreqGE := fun a b => by unfold rowFreqGE; infer_instance

instance : IsTotal DbRow rowFreqGE := ⟨fun a b => le_total b.frequency a.frequency⟩

instance : IsTrans DbRow rowFreqGE := ⟨fun _ _ _ h h₁ => le_trans h₁ h⟩

/-- `getMostFrequentTerms(limit)`:
`SELECT * FROM medical_terms ORDER BY frequency DESC LIMIT ?`. -/
def dbGetMostFrequentTerms (tb : DbTable) (limit : Nat) : List DbRow :=
  (tb.rows.insertionSort rowFreqGE).take limit

/-- `incrementTermFrequency(termId)`:
`UPDATE medical_terms SET frequency = frequency + 1 WHERE id = ?`. -/
def dbIncrementTermFrequency (tb : DbTable) (termId : Nat) : DbTable :=
  { tb with rows := tb.rows.map (fun r =>
      if r.id = termId then { r with frequency := r.frequency + 1 } else r) }

/-- `getTermFrequency(termId)`:
`SELECT frequency FROM medical_terms WHERE id = ?`, with
`row?.frequency ?? 0` on the result. -/
def dbGetTermFrequency (tb : DbTable) (termId : Nat) : Int :=
  match tb.rows.find? (fun r => r.id = termId) with
  | some r => r.frequency
  | none => 0

/-- The specialty/modality part of the WHERE clause built by
`findSimilarTerms`: the clause `(specialty = ? OR specialty IS NULL)` is
added only when the requested value is truthy (non-null, non-empty), and
likewise for modality. -/
def sqlSpecModFilter (r : DbRow) (reqS reqM : Option JStr) : Bool :=
  (match reqS with
   | none => true
   | some s => if s = [] then true else r.specialty == some s || r.specialty == none) &&
  (match reqM with
   | none => true
   | some m => if m = [] then true else r.modality == some m || r.modality == none)

/-- Modelled from the spec: `_matchesFilters` is elided in the source
("implementación igual que antes"); per §4.2 a term matches if its
`specialty` is null or equals the requested specialty, AND its
`modality` is null or equals the requested modality (null fields are
wildcards). -/
def matchesFilters (t : TermRecord) (reqS reqM : Option JStr) : Bool :=
  (t.specialty == none || t.specialty == reqS) &&
  (t.modality == none || t.modality == reqM)

/-! ### `addOrUpdateTerm` (service) -/

/-- A repository row, as the service caches it: `variants` and
`context_words` arrive as the raw TEXT columns. -/
def rowToTerm (r : DbRow) : TermRecord :=
  { id := r.id, heard_term := r.heard_term, correct_term := r.correct_term,
    specialty := r.specialty, modality := r.modality, frequency := r.frequency,
    variants := .vstr r.variants, context_words := r.context_words }

/-- `addOrUpdateTerm(heardTerm, correctTerm, options)`: returns null on a
missing argument; otherwise forwards to the repository upsert
(`upsertFails` is the outcome oracle of that call — a thrown repository
error is caught and turned into null) and then awaits `refreshCache`,
whose fetch reads the top `cacheLimit` rows of the updated table.
Returns the term id together with the new service state and table. -/
def addOrUpdateTerm (cfg : SvcConfig) (st : SvcState) (tb : DbTable)
    (heard correct : JStr) (sp mo : Option JStr) (vj cj : JStr)
    (upsertFails : Bool) (flushOk : Bool) (mem : MemStats) (memFlushOk : Bool)
    (now : Nat) : Option Nat × SvcState × DbTable :=
  if heard = [] ∨ correct = [] then (none, st, tb)
  else if upsertFails then (none, st, tb)
  else
    let r := dbAddOrUpdateMedicalTerm tb heard correct sp mo vj cj
    let st₁ := refreshCache cfg st
      { flushOk := flushOk,
        fetch := .ok ((dbGetMostFrequentTerms r.2 cfg.cacheLimit).map rowToTerm),
        mem := mem, memFlushOk := memFlushOk } now
    (some r.1, st₁, r.2)

/-! ### Shared sample objects for witnesses and counterexamples -/

/-- A sample `JSON.parse` oracle: the string "oops" is malformed JSON
(the parse throws); every other string parses to the empty array. -/
def sampleJp : JsonParseOracle :=
  fun s => if s = "oops".data then .error () else .ok (some [])

/-- A sample term with the given id, heard term, frequency and variants. -/
def mkTerm (i : Nat) (h : String) (f : Int) (v : VariantsField) : TermRecord :=
  { id := i, heard_term := h.data, correct_term := h.data, specialty := none,
    modality := none, frequency := f, variants := v, context_words := [] }

/-- A sample configuration with the constructor defaults. -/
def sampleCfg : SvcConfig := { jp := sampleJp }

/-- A sample configuration with `cacheLimit` 10. -/
def smallCfg : SvcConfig := { cacheLimit := 10, jp := sampleJp }

/-- A benign memory sample (low heap use, low RSS). -/
def memLow : MemStats := { heapUsed := 0, heapTotal := 1000, rss := 0 }

/-- A memory sample with heap ratio 0.9 and RSS 600 MiB: above both
thresholds of `_checkMemoryUsage` at once. -/
def memBoth : MemStats := { heapUsed := 900, heapTotal := 1000, rss := 629145600 }

/-- A healthy cached term: frequency 1, variants `"[]"`. -/
def sampleGood : TermRecord := mkTerm 1 "a" 1 (.vstr "[]".data)

/-- A term whose `variants` column holds malformed JSON and whose
frequency exceeds the frequent-terms threshold, so indexing it makes
`JSON.parse` throw. -/
def sampleBad : TermRecord := mkTerm 2 "b" 6 (.vstr "oops".data)

/-- A consistent one-term service state. -/
def sampleSt : SvcState :=
  { cachedTerms := [sampleGood], cacheLastUpdated := 0, hasTriggeredWarning := false,
    idx := (rebuildRun sampleJp [sampleGood]).1, freqBatch := [] }

/-- Refresh oracles whose repository fetch returns the malformed term. -/
def badFetchOracles : RefreshOracles :=
  { flushOk := true, fetch := .ok [sampleBad], mem := memLow, memFlushOk := true }

/-- Six low-frequency cached terms (more than half of `smallCfg`'s limit). -/
def sixTerms : List TermRecord :=
  [mkTerm 1 "t1" 1 .vnull, mkTerm 2 "t2" 1 .vnull, mkTerm 3 "t3" 1 .vnull,
   mkTerm 4 "t4" 1 .vnull, mkTerm 5 "t5" 1 .vnull, mkTerm 6 "t6" 1 .vnull]

/-- A consistent six-term service state. -/
def sixSt : SvcState :=
  { cachedTerms := sixTerms, cacheLastUpdated := 0, hasTriggeredWarning := false,
    idx := (rebuildRun sampleJp sixTerms).1, freqBatch := [] }

/-- Three terms with frequencies 3, 2, 1 (all at most 5). -/
def termA : TermRecord := mkTerm 1 "aa" 3 .vnull

def termB : TermRecord := mkTerm 2 "bb" 2 .vnull

def termC : TermRecord := mkTerm 3 "cc" 1 .vnull

/-- A consistent three-term service state with frequencies 3, 2, 1. -/
def threeSt : SvcState :=
  { cachedTerms := [termA, termB, termC], cacheLastUpdated := 0,
    hasTriggeredWarning := false,
    idx := (rebuildRun sampleJp [termA, termB, termC]).1, freqBatch := [] }

/-- A sample repository row. -/
def sampleRow : DbRow :=
  { id := 1, heard_term := "aa".data, correct_term := "x".data,
    specialty := none, modality := none, frequency := 1, variants := "[]".data,
    context_words := "[]".data }

/-- A one-row repository table. -/
def sampleTable : DbTable := { rows := [sampleRow], nextId := 2 }

/-- A service state whose cache mirrors `sampleTable` and was stamped
fresh at time 1000. -/
def freshSt : SvcState :=
  { cachedTerms := [rowToTerm sampleRow], cacheLastUpdated := 1000,
    hasTriggeredWarning := false,
    idx := (rebuildRun sampleJp [rowToTerm sampleRow]).1, freqBatch := [] }

/-! ### State-preservation helper lemmas -/

theorem reduceCacheSize_lastUpdated (cfg : SvcConfig) (st : SvcState) (k : Nat) :
    (reduceCacheSize cfg st k).1.cacheLastUpdated = st.cacheLastUpdated := by
  unfold reduceCacheSize; split <;> rfl

theorem checkMemoryUsage_lastUpdated (cfg : SvcConfig) (st : SvcState)
    (m : MemStats) (f : Bool) :
    (checkMemoryUsage cfg st m f).cacheLastUpdated = st.cacheLastUpdated := by
  unfold checkMemoryUsage
  dsimp only
  split
  · split
    · exact reduceCacheSize_lastUpdated cfg st _
    · split
      · exact reduceCacheSize_lastUpdated cfg st _
      · exact reduceCacheSize_lastUpdated cfg st _
  · split <;> rfl

theorem updateWarningFlag_fields (cfg : SvcConfig) (st : SvcState) :
    (updateWarningFlag cfg st).cachedTerms = st.cachedTerms
    ∧ (updateWarningFlag cfg st).idx = st.idx
    ∧ (updateWarningFlag cfg st).cacheLastUpdated = st.cacheLastUpdated := by
  unfold updateWarningFlag
  split
  · split <;> exact ⟨rfl, rfl, rfl⟩
  · exact ⟨rfl, rfl, rfl⟩

/-! ### Claim theorems: C10, C8, C4 -/

theorem map_incr_missing_eq_self (rows : List DbRow) (termId : Nat)
    (h : ∀ r ∈ rows, r.id ≠ termId) :
    rows.map (fun r =>
        if r.id = termId then { r with frequency := r.frequency + 1 } else r)
      = rows := by
  induction rows with
  | nil => rfl
  | cons r rs ih =>
      simp only [List.map_cons]
      rw [if_neg (h r (by simp))]
      rw [ih (fun q hq => h q (by simp [hq]))]

/-- Claim C10: `incrementTermFrequency` with a term id absent from the
repository is a silent no-op (the table is unchanged), and
`getTermFrequency` for an absent id returns 0. -/
theorem C10_missing_id (tb : DbTable) (termId : Nat)
    (h : ∀ r ∈ tb.rows, r.id ≠ termId) :
    dbIncrementTermFrequency tb termId = tb ∧ dbGetTermFrequency tb termId = 0 := by
  constructor
  · unfold dbIncrementTermFrequency
    rw [map_incr_missing_eq_self tb.rows termId h]
  · unfold dbGetTermFrequency
    rw [List.find?_eq_none.mpr (by intro r hr; simpa using h r hr)]

/-- Witness for C10 at a concrete table and a concrete absent id. -/
theorem C10_missing_id_witness :
    dbIncrementTermFrequency sampleTable 5 = sampleTable
    ∧ dbGetTermFrequency sampleTable 5 = 0 :=
  C10_missing_id sampleTable 5 (by decide)

/-- Claim C8: a candidate is eligible under the requested (non-null)
specialty and modality iff its specialty is null or equal to the
requested one AND its modality is null or equal to the requested one —
both for the spec-modelled `_matchesFilters` and for the WHERE clause
built by `findSimilarTerms`. -/
theorem C8_eligibility_iff (t : TermRecord) (r : DbRow) (s m : JStr)
    (hs : s ≠ []) (hm : m ≠ []) :
    (matchesFilters t (some s) (some m) = true ↔
      (t.specialty = none ∨ t.specialty = some s) ∧
      (t.modality = none ∨ t.modality = some m)) ∧
    (sqlSpecModFilter r (some s) (some m) = true ↔
      (r.specialty = none ∨ r.specialty = some s) ∧
      (r.modality = none ∨ r.modality = some m)) := by
  constructor
  · simp [matchesFilters]
  · simp [sqlSpecModFilter, hs, hm]
    tauto

/-- A term scoped to specialty "cardio". -/
def cardioTerm : TermRecord :=
  { mkTerm 4 "dd" 1 .vnull with specialty := some "cardio".data }

/-- Witness for C8: a term scoped to specialty "cardio" is not eligible
when specialty "neuro" is requested. -/
theorem C8_eligibility_witness :
    ¬ (matchesFilters cardioTerm (some "neuro".data) (some "ct".data) = true) :=
  fun h => by
    have h₂ := (C8_eligibility_iff cardioTerm sampleRow "neuro".data "ct".data
      (by decide) (by decide)).1.mp h
    exact absurd h₂.1 (by decide)

/-- Claim C4 (amended): the two memory triggers are checked with
else-if and are mutually exclusive within one tick.  When the heap
trigger fires (heap ratio above 0.85 and cache size above half the
limit) the cache is reduced to the top half-limit by frequency and —
when the index rebuild and the flush both succeed — the frequency batch
is cleared; the full cache clear happens only in ticks where the heap
trigger does not fire and resident memory exceeds 500MB. -/
theorem C4_memory_triggers_else_if (cfg : SvcConfig) (st : SvcState)
    (m : MemStats) (flushOk : Bool) :
    (heapTrigger cfg st m = true →
       (checkMemoryUsage cfg st m flushOk).cachedTerms
           = (sortFreq st.cachedTerms).take (cfg.cacheLimit / 2)
       ∧ ((rebuildRun cfg.jp ((sortFreq st.cachedTerms).take (cfg.cacheLimit / 2))).2 = false →
            flushOk = true →
            (checkMemoryUsage cfg st m flushOk).freqBatch = []))
    ∧ (heapTrigger cfg st m = false → 500 < rssMB m →
         checkMemoryUsage cfg st m flushOk = clearCache st)
    ∧ (heapTrigger cfg st m = false → rssMB m ≤ 500 →
         checkMemoryUsage cfg st m flushOk = st) := by
  refine ⟨?_, ?_, ?_⟩
  · intro ht
    have hlt : cfg.cacheLimit < 2 * st.cachedTerms.length := by
      have := ht
      unfold heapTrigger at this
      simp only [Bool.and_eq_true, decide_eq_true_eq] at this
      exact this.2
    have hred : ¬ (st.cachedTerms.length ≤ cfg.cacheLimit / 2) := by omega
    unfold checkMemoryUsage reduceCacheSize
    dsimp only
    rw [if_pos ht, if_neg hred]
    dsimp only
    constructor
    · split
      · rfl
      · split <;> rfl
    · intro hreb hfl
      rw [hreb, hfl]
      simp
  · intro hf hr
    unfold checkMemoryUsage
    rw [if_neg (by simp [hf]), if_pos hr]
  · intro hf hr
    unfold checkMemoryUsage
    rw [if_neg (by simp [hf]), if_neg (by omega)]

/-- Counterexample for C4 as stated: with heap ratio 0.9, cache size
above half the limit, and RSS at 600MB all in the same tick, only the
reduction fires — the cache is not cleared even though RSS exceeds
500MB, contradicting independence of the two triggers. -/
theorem C4_cex :
    500 < rssMB memBoth
    ∧ (checkMemoryUsage smallCfg sixSt memBoth true).cachedTerms ≠ [] := by decide

/-- Witness for C4 at a concrete benign tick: neither trigger fires and
the state is untouched. -/
theorem C4_memory_triggers_witness :
    checkMemoryUsage smallCfg sixSt memLow true = sixSt :=
  (C4_memory_triggers_else_if smallCfg sixSt memLow true).2.2 (by decide) (by decide)

/-! ### Claim C9 -/

theorem refreshCache_fetch_error (cfg : SvcConfig) (st : SvcState)
    (o : RefreshOracles) (now : Nat) (hguard : cacheFresh cfg st now = false)
    (hflush : o.flushOk = true) (hfetch : o.fetch = .error ()) :
    refreshCache cfg st o now =
      if st.cachedTerms.length = 0
      then { st with cachedTerms := [], idx := emptyIndices, freqBatch := [] }
      else { st with freqBatch := [] } := by
  unfold refreshCache
  rw [if_neg (by simp [hguard]), if_neg (by simp [hflush]), hfetch]

theorem refreshCache_flush_error (cfg : SvcConfig) (st : SvcState)
    (o : RefreshOracles) (now : Nat) (hguard : cacheFresh cfg st now = false)
    (hflush : o.flushOk = false) :
    refreshCache cfg st o now =
      if st.cachedTerms.length = 0
      then { st with cachedTerms := [], idx := emptyIndices }
      else st := by
  unfold refreshCache
  rw [if_neg (by simp [hguard]), if_pos (by simp [hflush])]

/-- Claim C9: if the repository fetch inside `refreshCache` fails, the
cache-age timestamp `cacheLastUpdated` is left unchanged, and at every
later time the staleness guard of the next `refreshCache` call does not
early-return (the fetch is attempted again); moreover the timestamp is
changed only by a call whose fetch succeeded. -/
theorem C9_failed_fetch_timestamp (cfg : SvcConfig) (st : SvcState)
    (o : RefreshOracles) (now : Nat) (hguard : cacheFresh cfg st now = false)
    (hflush : o.flushOk = true) (hfetch : o.fetch = .error ()) :
    (refreshCache cfg st o now).cacheLastUpdated = st.cacheLastUpdated
    ∧ (∀ now₂, now ≤ now₂ →
        cacheFresh cfg (refreshCache cfg st o now) now₂ = false)
    ∧ (∀ o₂ : RefreshOracles,
        (refreshCache cfg st o₂ now).cacheLastUpdated ≠ st.cacheLastUpdated →
        ∃ ts, o₂.fetch = .ok ts) := by
  refine ⟨?_, ?_, ?_⟩
  · rw [refreshCache_fetch_error cfg st o now hguard hflush hfetch]
    split <;> rfl
  · intro now₂ hle
    rw [refreshCache_fetch_error cfg st o now hguard hflush hfetch]
    split
    · simp [cacheFresh]
    · rename_i hlen
      unfold cacheFresh at hguard ⊢
      simp only [Bool.and_eq_true, decide_eq_true_eq, Bool.and_eq_false_iff,
        decide_eq_false_iff_not] at hguard ⊢
      rcases hguard with h₁ | h₂
      · exfalso; omega
      · right; omega
  · intro o₂ hne
    cases hfo : o₂.fetch with
    | ok ts => exact ⟨ts, rfl⟩
    | error e =>
        exfalso
        apply hne
        cases hfl : o₂.flushOk with
        | true =>
            cases e
            rw [refreshCache_fetch_error cfg st o₂ now hguard hfl hfo]
            split <;> rfl
        | false =>
            rw [refreshCache_flush_error cfg st o₂ now hguard hfl]
            split <;> rfl

/-- Witness for C9 at a concrete state, time and failing fetch. -/
theorem C9_failed_fetch_witness :
    (refreshCache sampleCfg sampleSt
        { flushOk := true, fetch := .error (), mem := memLow, memFlushOk := true }
        1000000).cacheLastUpdated = sampleSt.cacheLastUpdated :=
  (C9_failed_fetch_timestamp sampleCfg sampleSt
      { flushOk := true, fetch := .error (), mem := memLow, memFlushOk := true }
      1000000 (by decide) rfl rfl).1

/-! ### Claim C1 -/

theorem processText_fst (cfg : SvcConfig) (split : JStr → List JStr)
    (proc : JStr → Option JStr → Option JStr → Except Unit (JStr × List Replacement))
    (st : SvcState) (hist : List Replacement) (o : RefreshOracles) (now : Nat)
    (text : JStr) (sp mo : Option JStr) :
    (processText cfg split proc st hist o now text sp mo).1
      = if text = [] ∨ jsTrim text = [] then (text, [])
        else
          match processTextCore split proc text sp mo with
          | .ok r => r
          | .error _ => (text, []) := by
  unfold processText
  dsimp only
  split
  · rfl
  · split <;>
      (cases h : processTextCore split proc text sp mo with
       | ok r => rfl
       | error e => rfl)

/-- Claim C1: `processText` never throws.  Whatever the oracles do — in
particular when the repository fetch inside the cache refresh fails, and
when any sentence processing step fails — it returns a result; when the
inner pipeline fails, that result is the original unmodified text with
an empty replacement list, and in every case the result is either that
fallback or the successful pipeline output. -/
theorem C1_never_throws (cfg : SvcConfig) (split : JStr → List JStr)
    (proc : JStr → Option JStr → Option JStr → Except Unit (JStr × List Replacement))
    (st : SvcState) (hist : List Replacement) (o : RefreshOracles) (now : Nat)
    (text : JStr) (sp mo : Option JStr) :
    ((processTextCore split proc text sp mo = .error ()) →
       (processText cfg split proc st hist o now text sp mo).1 = (text, []))
    ∧ ((processText cfg split proc st hist o now text sp mo).1 = (text, [])
        ∨ processTextCore split proc text sp mo
            = .ok (processText cfg split proc st hist o now text sp mo).1) := by
  rw [processText_fst]
  constructor
  · intro he
    rw [he]
    split <;> rfl
  · split
    · exact Or.inl rfl
    · cases h : processTextCore split proc text sp mo with
      | ok r => exact Or.inr rfl
      | error e => exact Or.inl rfl

/-- A unit processor that always fails (models an internal
`_processSentence` bug). -/
def sampleProcFail :
    JStr → Option JStr → Option JStr → Except Unit (JStr × List Replacement) :=
  fun _ _ _ => .error ()

/-- A sentence splitter returning the whole text as one unit. -/
def sampleSplit : JStr → List JStr := fun u => [u]

/-- Witness for C1: at a concrete input whose sentence processing fails
and whose repository fetch fails, the result is the original text with
no replacements. -/
theorem C1_never_throws_witness :
    (processText sampleCfg sampleSplit sampleProcFail sampleSt []
        badFetchOracles 0 "ab".data none none).1 = ("ab".data, []) :=
  (C1_never_throws sampleCfg sampleSplit sampleProcFail sampleSt []
      badFetchOracles 0 "ab".data none none).1 (by rfl)

/-! ### Claim C3 (code bug evidence) -/

/-- Claim C3 [counter-evidence for the immediate-matchability part]:
with a non-empty cache stamped fresh (stamped at time 1000, call at time
1001), `addOrUpdateTerm` successfully upserts the new term into the
repository (it returns id 2 and the table grows to two rows), but the
`refreshCache` it then awaits early-returns on the staleness guard, so
the new term is not present in the cache afterwards — it is not
immediately matchable, contrary to the call site's own comment
(`Forzar refresco para que esté disponible`). -/
theorem C3_fresh_cache_skips_refresh :
    (addOrUpdateTerm sampleCfg freshSt sampleTable "foo".data "bar".data none none
        "[]".data "[]".data false true memLow true 1001).1 = some 2
    ∧ (addOrUpdateTerm sampleCfg freshSt sampleTable "foo".data "bar".data none none
        "[]".data "[]".data false true memLow true 1001).2.2.rows.length = 2
    ∧ (addOrUpdateTerm sampleCfg freshSt sampleTable "foo".data "bar".data none none
        "[]".data "[]".data false true memLow true 1001).2.1 = freshSt
    ∧ ¬ ("foo".data ∈ ((addOrUpdateTerm sampleCfg freshSt sampleTable "foo".data
        "bar".data none none "[]".data "[]".data false true memLow true
        1001).2.1.cachedTerms.map (fun t => jsToLower t.heard_term))) := by
  decide

/-! ### Claim C2 -/

/-- Counterexample for C2 as stated: starting from a consistent state,
a `refreshCache` whose fetch returns a frequent term (`frequency` 6)
with a malformed-JSON `variants` column makes the index rebuild throw
after the cache collection was already replaced; since the old cache was
non-empty, the `catch` keeps the new collection with the partial
indices, so cache and indices are left out of sync. -/
theorem C2_cex :
    indicesInSync sampleJp sampleSt
    ∧ ¬ indicesInSync sampleJp (refreshCache sampleCfg sampleSt badFetchOracles 1000000) := by
  decide

/-- The weakened consistency property the code does maintain: whenever
`_rebuildTermIndices` succeeds on the current collection, the current
indices are exactly its output. -/
def syncIfRebuilds (jp : JsonParseOracle) (st : SvcState) : Prop :=
  ∀ i, rebuildTermIndices jp st.cachedTerms = .ok i → st.idx = i

theorem rebuildTermIndices_eq_ok (jp : JsonParseOracle) (l : List TermRecord)
    (i : Indices) :
    rebuildTermIndices jp l = .ok i ↔ rebuildRun jp l = (i, false) := by
  unfold rebuildTermIndices
  rcases h : rebuildRun jp l with ⟨idx, b⟩
  cases b <;> simp

theorem syncIf_of_inSync (jp : JsonParseOracle) (st : SvcState)
    (h : indicesInSync jp st) : syncIfRebuilds jp st := by
  intro i hi
  rw [rebuildTermIndices_eq_ok] at hi
  unfold indicesInSync at h
  rw [h] at hi
  exact (Prod.mk.injEq _ _ _ _ ▸ hi).1

theorem syncIf_congr (jp : JsonParseOracle) (s₁ s₂ : SvcState)
    (hc : s₂.cachedTerms = s₁.cachedTerms) (hx : s₂.idx = s₁.idx)
    (h : syncIfRebuilds jp s₁) : syncIfRebuilds jp s₂ := by
  intro i hrb
  rw [hc] at hrb
  rw [hx]
  exact h i hrb

theorem reduce_syncIf (cfg : SvcConfig) (st : SvcState) (k : Nat)
    (h : syncIfRebuilds cfg.jp st) :
    syncIfRebuilds cfg.jp (reduceCacheSize cfg st k).1 := by
  unfold reduceCacheSize
  dsimp only
  split
  · exact h
  · intro i hi
    rw [rebuildTermIndices_eq_ok] at hi
    exact congrArg Prod.fst hi

theorem clear_inSync (jp : JsonParseOracle) (st : SvcState) :
    indicesInSync jp (clearCache st) := rfl

theorem checkMem_syncIf (cfg : SvcConfig) (st : SvcState) (m : MemStats) (f : Bool)
    (h : syncIfRebuilds cfg.jp st) :
    syncIfRebuilds cfg.jp (checkMemoryUsage cfg st m f) := by
  unfold checkMemoryUsage
  dsimp only
  split
  · split
    · exact reduce_syncIf cfg st _ h
    · split
      · exact fun i hi => reduce_syncIf cfg st _ h i hi
      · exact reduce_syncIf cfg st _ h
  · split
    · exact syncIf_of_inSync cfg.jp _ (clear_inSync cfg.jp st)
    · exact h

theorem refresh_syncIf (cfg : SvcConfig) (st : SvcState) (o : RefreshOracles)
    (now : Nat) (h : syncIfRebuilds cfg.jp st) :
    syncIfRebuilds cfg.jp (refreshCache cfg st o now) := by
  unfold refreshCache
  dsimp only
  split
  · exact h
  · split
    · split
      · intro i hi
        rw [rebuildTermIndices_eq_ok] at hi
        exact congrArg Prod.fst hi.symm |>.symm
      · exact h
    · cases hf : o.fetch with
      | error e =>
          dsimp only
          split
          · intro i hi
            rw [rebuildTermIndices_eq_ok] at hi
            exact congrArg Prod.fst hi.symm |>.symm
          · exact fun i hi => h i hi
      | ok newTerms =>
          dsimp only
          split
          · split
            · intro i hi
              rw [rebuildTermIndices_eq_ok] at hi
              exact congrArg Prod.fst hi.symm |>.symm
            · rename_i hbad _
              intro i hi
              rw [rebuildTermIndices_eq_ok] at hi
              exact absurd (congrArg Prod.snd hi) (by rw [hbad]; simp)
          · rename_i hgood
            apply checkMem_syncIf
            apply syncIf_congr cfg.jp _ _
              (updateWarningFlag_fields cfg _).1 (updateWarningFlag_fields cfg _).2.1
            intro i hi
            rw [rebuildTermIndices_eq_ok] at hi
            exact congrArg Prod.fst hi

/-- Claim C2 (amended): after `refreshCache` (including its failure
paths), `_reduceCacheSize` and a cache clear, the indices equal exactly
what `_rebuildTermIndices` would produce from the current `cachedTerms`
collection PROVIDED that rebuild succeeds on it — i.e. provided every
cached term with frequency above 5 has a well-formed `variants` field.
When the rebuild throws (malformed JSON on a frequent term) and the
prior cache was non-empty, the code leaves partial indices behind
(see the counterexample). -/
theorem C2_indices_consistency (cfg : SvcConfig) (st : SvcState)
    (o : RefreshOracles) (now : Nat) (k : Nat)
    (h : indicesInSync cfg.jp st) :
    syncIfRebuilds cfg.jp (refreshCache cfg st o now)
    ∧ syncIfRebuilds cfg.jp (reduceCacheSize cfg st k).1
    ∧ indicesInSync cfg.jp (clearCache st) :=
  ⟨refresh_syncIf cfg st o now (syncIf_of_inSync cfg.jp st h),
   reduce_syncIf cfg st k (syncIf_of_inSync cfg.jp st h),
   clear_inSync cfg.jp st⟩

/-- Witness for C2 (amended) at a concrete consistent state. -/
theorem C2_indices_consistency_witness :
    indicesInSync sampleCfg.jp (clearCache sampleSt) :=
  (C2_indices_consistency sampleCfg sampleSt badFetchOracles 1000000 0
      (by decide)).2.2

/-! ### Claim C6 -/

/-- A term occurs as a value somewhere in the three indices. -/
def inIndices (x : TermRecord) (i : Indices) : Prop :=
  (∃ p ∈ i.byLength, x ∈ p.2) ∨ (∃ p ∈ i.byFirstChar, x ∈ p.2) ∨
    (∃ p ∈ i.frequent, p.2 = x)

theorem pushAt_mem {κ : Type} [DecidableEq κ] (k : κ) (t x : TermRecord) :
    ∀ (m : List (κ × List TermRecord)) (p : κ × List TermRecord),
      p ∈ pushAt m k t → x ∈ p.2 → (∃ q ∈ m, x ∈ q.2) ∨ x = t := by
  intro m
  induction m with
  | nil =>
      intro p hp hx
      simp only [pushAt, List.mem_singleton] at hp
      subst hp
      simp only [List.mem_singleton] at hx
      exact Or.inr hx
  | cons hd rest ih =>
      intro p hp hx
      obtain ⟨k₁, ts⟩ := hd
      simp only [pushAt] at hp
      split at hp
      · rcases List.mem_cons.mp hp with h | h
        · subst h
          simp only [List.mem_append, List.mem_singleton] at hx
          rcases hx with hx | hx
          · exact Or.inl ⟨(k₁, ts), by simp, hx⟩
          · exact Or.inr hx
        · exact Or.inl ⟨p, by simp [h], hx⟩
      · rcases List.mem_cons.mp hp with h | h
        · subst h
          exact Or.inl ⟨(k₁, ts), by simp, hx⟩
        · rcases ih p h hx with ⟨q, hq, hxq⟩ | h₂
          · exact Or.inl ⟨q, by simp [hq], hxq⟩
          · exact Or.inr h₂

theorem setKey_mem (k : JStr) (t : TermRecord) :
    ∀ (m : List (JStr × TermRecord)) (p : JStr × TermRecord),
      p ∈ setKey m k t → p.2 = t ∨ ∃ q ∈ m, q.2 = p.2 := by
  intro m
  induction m with
  | nil =>
      intro p hp
      simp only [setKey, List.mem_singleton] at hp
      subst hp
      exact Or.inl rfl
  | cons hd rest ih =>
      intro p hp
      obtain ⟨k₁, t₁⟩ := hd
      simp only [setKey] at hp
      split at hp
      · rcases List.mem_cons.mp hp with h | h
        · subst h; exact Or.inl rfl
        · exact Or.inr ⟨p, by simp [h], rfl⟩
      · rcases List.mem_cons.mp hp with h | h
        · subst h; exact Or.inr ⟨(k₁, t₁), by simp, rfl⟩
        · rcases ih p h with h₂ | ⟨q, hq, hxq⟩
          · exact Or.inl h₂
          · exact Or.inr ⟨q, by simp [hq], hxq⟩

theorem addVariants_byLength (t : TermRecord) (vs : List JStr) :
    ∀ idx, (addVariants t idx vs).byLength = idx.byLength := by
  induction vs with
  | nil => intro idx; rfl
  | cons v rest ih =>
      intro idx
      unfold addVariants
      simp only [List.foldl_cons]
      rw [show (List.foldl _ _ rest : Indices) = addVariants t _ rest from rfl, ih]
      split <;> rfl

theorem addVariants_byFirstChar (t : TermRecord) (vs : List JStr) :
    ∀ idx, (addVariants t idx vs).byFirstChar = idx.byFirstChar := by
  induction vs with
  | nil => intro idx; rfl
  | cons v rest ih =>
      intro idx
      unfold addVariants
      simp only [List.foldl_cons]
      rw [show (List.foldl _ _ rest : Indices) = addVariants t _ rest from rfl, ih]
      split <;> rfl

theorem addVariants_frequent_mem (t : TermRecord) (vs : List JStr) :
    ∀ idx (p : JStr × TermRecord), p ∈ (addVariants t idx vs).frequent →
      p.2 = t ∨ ∃ q ∈ idx.frequent, q.2 = p.2 := by
  induction vs with
  | nil => intro idx p hp; exact Or.inr ⟨p, hp, rfl⟩
  | cons v rest ih =>
      intro idx p hp
      unfold addVariants at hp
      simp only [List.foldl_cons] at hp
      rw [show (List.foldl _ _ rest : Indices) = addVariants t _ rest from rfl] at hp
      rcases ih _ p hp with h | ⟨q, hq, hvq⟩
      · exact Or.inl h
      · by_cases hv : v = []
        · rw [if_pos hv] at hq
          exact Or.inr ⟨q, hq, hvq⟩
        · rw [if_neg hv] at hq
          rcases setKey_mem _ t _ q hq with h₂ | ⟨q₂, hq₂, hvq₂⟩
          · exact Or.inl (hvq ▸ h₂)
          · exact Or.inr ⟨q₂, hq₂, hvq ▸ hvq₂⟩

theorem indexTerm_val (jp : JsonParseOracle) (idx : Indices) (t x : TermRecord)
    (h : inIndices x (indexTerm jp idx t).1) : inIndices x idx ∨ x = t := by
  unfold indexTerm at h
  dsimp only at h
  have decomp :
      ∀ fr₂ : List (JStr × TermRecord),
        (∀ p ∈ fr₂, p.2 = t ∨ ∃ q ∈ idx.frequent, q.2 = p.2) →
        inIndices x
          { byLength := pushAt idx.byLength (jsToLower t.heard_term).length t,
            byFirstChar :=
              pushAt idx.byFirstChar ((jsToLower t.heard_term).take 1) t,
            frequent := fr₂ } →
        inIndices x idx ∨ x = t := by
    intro fr₂ hfr hin
    rcases hin with ⟨p, hp, hx⟩ | ⟨p, hp, hx⟩ | ⟨p, hp, hx⟩
    · rcases pushAt_mem _ t x _ p hp hx with ⟨q, hq, hxq⟩ | h₂
      · exact Or.inl (Or.inl ⟨q, hq, hxq⟩)
      · exact Or.inr h₂
    · rcases pushAt_mem _ t x _ p hp hx with ⟨q, hq, hxq⟩ | h₂
      · exact Or.inl (Or.inr (Or.inl ⟨q, hq, hxq⟩))
      · exact Or.inr h₂
    · rcases hfr p hp with h₂ | ⟨q, hq, hvq⟩
      · exact Or.inr (hx ▸ h₂)
      · exact Or.inl (Or.inr (Or.inr ⟨q, hq, hx ▸ hvq⟩))
  split at h
  · rcases hpv : parseVariants jp t.variants with e | ov
    · rw [hpv] at h
      refine decomp _ (fun p hp => ?_) h
      rcases setKey_mem _ t _ p hp with h₂ | h₂
      · exact Or.inl h₂
      · exact Or.inr h₂
    · rcases ov with _ | vs
      · rw [hpv] at h
        refine decomp _ (fun p hp => ?_) h
        rcases setKey_mem _ t _ p hp with h₂ | h₂
        · exact Or.inl h₂
        · exact Or.inr h₂
      · rw [hpv] at h
        dsimp only at h
        rw [show (addVariants t _ vs) =
            { byLength := (addVariants t _ vs).byLength,
              byFirstChar := (addVariants t _ vs).byFirstChar,
              frequent := (addVariants t _ vs).frequent } from rfl] at h
        rw [addVariants_byLength, addVariants_byFirstChar] at h
        refine decomp _ (fun p hp => ?_) h
        rcases addVariants_frequent_mem t vs _ p hp with h₂ | ⟨q, hq, hvq⟩
        · exact Or.inl h₂
        · rcases setKey_mem _ t _ q hq with h₃ | ⟨q₂, hq₂, hvq₂⟩
          · exact Or.inl (hvq ▸ h₃)
          · exact Or.inr ⟨q₂, hq₂, hvq ▸ hvq₂⟩
  · refine decomp _ (fun p hp => Or.inr ⟨p, hp, rfl⟩) h

theorem rebuildGo_val (jp : JsonParseOracle) (x : TermRecord) :
    ∀ (l : List TermRecord) (acc : Indices),
      inIndices x (rebuildGo jp acc l).1 → inIndices x acc ∨ x ∈ l := by
  intro l
  induction l with
  | nil => intro acc h; exact Or.inl h
  | cons t ts ih =>
      intro acc h
      unfold rebuildGo at h
      rcases hit : indexTerm jp acc t with ⟨acc₁, b⟩
      rw [hit] at h
      cases b
      · dsimp only at h
        rcases ih acc₁ h with h₂ | h₂
        · rcases indexTerm_val jp acc t x (hit ▸ h₂) with h₃ | h₃
          · exact Or.inl h₃
          · exact Or.inr (by simp [h₃])
        · exact Or.inr (by simp [h₂])
      · dsimp only at h
        rcases indexTerm_val jp acc t x (hit ▸ h) with h₃ | h₃
        · exact Or.inl h₃
        · exact Or.inr (by simp [h₃])

theorem not_inIndices_empty (x : TermRecord) : ¬ inIndices x emptyIndices := by
  intro h
  rcases h with ⟨p, hp, _⟩ | ⟨p, hp, _⟩ | ⟨p, hp, _⟩ <;> simp [emptyIndices] at hp

theorem setKey_lookup_self (k : JStr) (t : TermRecord) :
    ∀ m, lookupKey (setKey m k t) k = some t := by
  intro m
  induction m with
  | nil => simp [setKey, lookupKey]
  | cons hd rest ih =>
      obtain ⟨k₁, t₁⟩ := hd
      unfold setKey
      by_cases h : k₁ = k
      · rw [if_pos h]
        unfold lookupKey
        rw [if_pos h]
      · rw [if_neg h]
        unfold lookupKey
        rw [if_neg h]
        exact ih

theorem setKey_lookup_mono (k k₂ : JStr) (t : TermRecord) :
    ∀ m, lookupKey m k₂ ≠ none → lookupKey (setKey m k t) k₂ ≠ none := by
  intro m
  induction m with
  | nil => intro h; simp [lookupKey] at h
  | cons hd rest ih =>
      obtain ⟨k₁, t₁⟩ := hd
      intro h
      unfold setKey
      by_cases hk : k₁ = k
      · rw [if_pos hk]
        unfold lookupKey at h ⊢
        by_cases hk₂ : k₁ = k₂
        · rw [if_pos hk₂]; simp
        · rw [if_neg hk₂] at h ⊢; exact h
      · rw [if_neg hk]
        unfold lookupKey at h ⊢
        by_cases hk₂ : k₁ = k₂
        · rw [if_pos hk₂] at h ⊢; exact h
        · rw [if_neg hk₂] at h ⊢; exact ih h

theorem addVariants_lookup_mono (t : TermRecord) (vs : List JStr) (k₂ : JStr) :
    ∀ idx, lookupKey idx.frequent k₂ ≠ none →
      lookupKey (addVariants t idx vs).frequent k₂ ≠ none := by
  induction vs with
  | nil => intro idx h; exact h
  | cons v rest ih =>
      intro idx h
      unfold addVariants
      simp only [List.foldl_cons]
      rw [show (List.foldl _ _ rest : Indices) = addVariants t _ rest from rfl]
      apply ih
      by_cases hv : v = []
      · rw [if_pos hv]; exact h
      · rw [if_neg hv]
        exact setKey_lookup_mono _ k₂ t _ h

theorem indexTerm_lookup_mono (jp : JsonParseOracle) (idx : Indices)
    (t : TermRecord) (k₂ : JStr) (h : lookupKey idx.frequent k₂ ≠ none) :
    lookupKey (indexTerm jp idx t).1.frequent k₂ ≠ none := by
  unfold indexTerm
  dsimp only
  split
  · rcases hpv : parseVariants jp t.variants with e | ov
    · exact setKey_lookup_mono _ k₂ t _ h
    · rcases ov with _ | vs
      · exact setKey_lookup_mono _ k₂ t _ h
      · dsimp only
        exact addVariants_lookup_mono t vs k₂ _ (setKey_lookup_mono _ k₂ t _ h)
  · exact h

theorem indexTerm_lookup_self (jp : JsonParseOracle) (idx : Indices)
    (t : TermRecord) (h5 : 5 < t.frequency) :
    lookupKey (indexTerm jp idx t).1.frequent (jsToLower t.heard_term) ≠ none := by
  unfold indexTerm
  dsimp only
  rw [if_pos h5]
  have hself :
      lookupKey (setKey idx.frequent (jsToLower t.heard_term) t)
        (jsToLower t.heard_term) ≠ none := by
    rw [setKey_lookup_self]; simp
  rcases hpv : parseVariants jp t.variants with e | ov
  · exact hself
  · rcases ov with _ | vs
    · exact hself
    · exact addVariants_lookup_mono t vs _ _ hself

theorem rebuildGo_lookup_mono (jp : JsonParseOracle) (k₂ : JStr) :
    ∀ (l : List TermRecord) (acc : Indices),
      lookupKey acc.frequent k₂ ≠ none →
      lookupKey (rebuildGo jp acc l).1.frequent k₂ ≠ none := by
  intro l
  induction l with
  | nil => intro acc h; exact h
  | cons t ts ih =>
      intro acc h
      unfold rebuildGo
      rcases hit : indexTerm jp acc t with ⟨acc₁, b⟩
      have h₁ : lookupKey acc₁.frequent k₂ ≠ none := by
        have := indexTerm_lookup_mono jp acc t k₂ h
        rw [hit] at this
        exact this
      cases b
      · exact ih acc₁ h₁
      · exact h₁

theorem rebuildGo_freq_present (jp : JsonParseOracle) :
    ∀ (l : List TermRecord) (acc : Indices),
      (rebuildGo jp acc l).2 = false →
      ∀ t ∈ l, 5 < t.frequency →
        lookupKey (rebuildGo jp acc l).1.frequent (jsToLower t.heard_term) ≠ none := by
  intro l
  induction l with
  | nil => intro acc _ t ht; simp at ht
  | cons u ts ih =>
      intro acc hok t ht h5
      unfold rebuildGo at hok ⊢
      rcases hit : indexTerm jp acc u with ⟨acc₁, b⟩
      rw [hit] at hok
      cases b
      · dsimp only at hok ⊢
        rcases List.mem_cons.mp ht with h | h
        · subst h
          apply rebuildGo_lookup_mono
          have := indexTerm_lookup_self jp acc t h5
          rw [hit] at this
          exact this
        · exact ih acc₁ hok t h h5
      · simp at hok

/-- Counterexample for C6 as stated: reducing a consistent three-term
cache (frequencies 3, 2, 1, all at most 5) to 2 retains the two most
frequent terms and the rebuild succeeds, yet the retained top term is
NOT findable via exact lookup — the frequent-terms map only registers
terms with frequency above 5. -/
theorem C6_cex :
    indicesInSync sampleJp threeSt
    ∧ (reduceCacheSize smallCfg threeSt 2).1.cachedTerms = [termA, termB]
    ∧ (reduceCacheSize smallCfg threeSt 2).2 = false
    ∧ lookupKey (reduceCacheSize smallCfg threeSt 2).1.idx.frequent
        (jsToLower termA.heard_term) = none := by
  decide

/-- Claim C6 (amended): `_reduceCacheSize(k)` is a no-op when the cache
holds at most `k` terms.  Otherwise it retains exactly the `k`
highest-frequency cached terms (a stable descending sort's prefix; every
retained term's frequency is at least every evicted term's), touches
only the in-memory state (the function does not receive the repository
at all), and rebuilds the indices from the retained terms so that every
term occurring in any index is a retained term (hence no evicted term is
findable), and — when the rebuild completes — every retained term with
frequency above 5 is present in the exact-lookup (frequent-terms) map
under its lowercase heard term. -/
theorem C6_reduce_cache (cfg : SvcConfig) (st : SvcState) (k : Nat) :
    (st.cachedTerms.length ≤ k → reduceCacheSize cfg st k = (st, false))
    ∧ (k < st.cachedTerms.length →
        (reduceCacheSize cfg st k).1.cachedTerms = (sortFreq st.cachedTerms).take k
        ∧ (reduceCacheSize cfg st k).1.cachedTerms.length = k
        ∧ (sortFreq st.cachedTerms).Perm st.cachedTerms
        ∧ (∀ t ∈ (sortFreq st.cachedTerms).take k,
             ∀ u ∈ (sortFreq st.cachedTerms).drop k, u.frequency ≤ t.frequency)
        ∧ (reduceCacheSize cfg st k).1.idx
            = (rebuildRun cfg.jp ((sortFreq st.cachedTerms).take k)).1
        ∧ (∀ x, inIndices x (reduceCacheSize cfg st k).1.idx →
             x ∈ (sortFreq st.cachedTerms).take k)
        ∧ ((reduceCacheSize cfg st k).2 = false →
             ∀ t ∈ (sortFreq st.cachedTerms).take k, 5 < t.frequency →
               lookupKey (reduceCacheSize cfg st k).1.idx.frequent
                 (jsToLower t.heard_term) ≠ none)) := by
  constructor
  · intro hle
    unfold reduceCacheSize
    rw [if_pos hle]
  · intro hgt
    have hnle : ¬ (st.cachedTerms.length ≤ k) := by omega
    have hred : reduceCacheSize cfg st k =
        ({ st with
            cachedTerms := (sortFreq st.cachedTerms).take k,
            idx := (rebuildRun cfg.jp ((sortFreq st.cachedTerms).take k)).1 },
          (rebuildRun cfg.jp ((sortFreq st.cachedTerms).take k)).2) := by
      unfold reduceCacheSize
      rw [if_neg hnle]
    rw [hred]
    have hperm : (sortFreq st.cachedTerms).Perm st.cachedTerms :=
      List.perm_insertionSort freqGE st.cachedTerms
    refine ⟨rfl, ?_, hperm, ?_, rfl, ?_, ?_⟩
    · have := hperm.length_eq
      simp only [List.length_take]
      omega
    · intro t ht u hu
      exact (List.sorted_insertionSort freqGE
        st.cachedTerms).rel_of_mem_take_of_mem_drop ht hu
    · intro x hx
      rcases rebuildGo_val cfg.jp x _ emptyIndices hx with h | h
      · exact absurd h (not_inIndices_empty x)
      · exact h
    · intro hok t ht h5
      exact rebuildGo_freq_present cfg.jp _ emptyIndices hok t ht h5

/-- Witness for C6 (amended) at the concrete three-term cache reduced
to two. -/
theorem C6_reduce_cache_witness :
    (reduceCacheSize smallCfg threeSt 2).1.cachedTerms
      = (sortFreq threeSt.cachedTerms).take 2 :=
  ((C6_reduce_cache smallCfg threeSt 2).2 (by decide)).1

/-! ### Claim C7 -/

theorem nocaseEq_symm (a b : JStr) : nocaseEq a b = nocaseEq b a := by
  unfold nocaseEq
  by_cases h : a.map Char.toLower = b.map Char.toLower
  · simp [h]
  · have h₂ : ¬ b.map Char.toLower = a.map Char.toLower := fun hh => h hh.symm
    rw [beq_eq_false_iff_ne.mpr h, beq_eq_false_iff_ne.mpr h₂]

theorem upsertRows_no_conflict (key c : JStr) (sp mo : Option JStr) (vj cj : JStr) :
    ∀ rows : List DbRow, (∀ q ∈ rows, nocaseEq q.heard_term key = false) →
      upsertRows key c sp mo vj cj rows = (none, rows) := by
  intro rows
  induction rows with
  | nil => intro _; rfl
  | cons r rs ih =>
      intro h
      unfold upsertRows
      rw [if_neg (by simp [h r (by simp)])]
      rw [ih (fun q hq => h q (by simp [hq]))]

theorem upsertRows_found (key c : JStr) (sp mo : Option JStr) (vj cj : JStr)
    (q : DbRow) (post : List DbRow) (hq : nocaseEq q.heard_term key = true) :
    ∀ pre : List DbRow, (∀ p ∈ pre, nocaseEq p.heard_term key = false) →
      upsertRows key c sp mo vj cj (pre ++ q :: post)
        = (some q.id, pre ++ conflictUpdate c sp mo vj cj q :: post) := by
  intro pre
  induction pre with
  | nil =>
      intro _
      simp only [List.nil_append]
      unfold upsertRows
      rw [if_pos hq]
  | cons p ps ih =>
      intro h
      simp only [List.cons_append]
      unfold upsertRows
      rw [if_neg (by simp [h p (by simp)])]
      rw [ih (fun p₂ hp₂ => h p₂ (by simp [hp₂]))]

theorem upsertRows_fst_none (key c : JStr) (sp mo : Option JStr) (vj cj : JStr) :
    ∀ rows : List DbRow, (upsertRows key c sp mo vj cj rows).1 = none →
      ∀ q ∈ rows, nocaseEq q.heard_term key = false := by
  intro rows
  induction rows with
  | nil => intro _ q hq; simp at hq
  | cons r rs ih =>
      intro h q hq
      unfold upsertRows at h
      by_cases hr : nocaseEq r.heard_term key = true
      · rw [if_pos hr] at h; simp at h
      · rw [if_neg hr] at h
        rcases List.mem_cons.mp hq with h₂ | h₂
        · subst h₂; simpa using hr
        · exact ih (by simpa using h) q h₂

theorem upsertRows_heards (key c : JStr) (sp mo : Option JStr) (vj cj : JStr) :
    ∀ rows : List DbRow,
      ((upsertRows key c sp mo vj cj rows).2).map (fun r => r.heard_term)
        = rows.map (fun r => r.heard_term) := by
  intro rows
  induction rows with
  | nil => rfl
  | cons r rs ih =>
      unfold upsertRows
      split
      · simp [conflictUpdate]
      · simp [ih]

theorem upsertRows_shape (key c : JStr) (sp mo : Option JStr) (vj cj : JStr) :
    ∀ (rows : List DbRow) (r : DbRow), r ∈ (upsertRows key c sp mo vj cj rows).2 →
      r ∈ rows ∨ ∃ q ∈ rows, r = conflictUpdate c sp mo vj cj q := by
  intro rows
  induction rows with
  | nil => intro r hr; exact Or.inl hr
  | cons hd rs ih =>
      intro r hr
      unfold upsertRows at hr
      split at hr
      · rcases List.mem_cons.mp hr with h | h
        · exact Or.inr ⟨hd, by simp, h⟩
        · exact Or.inl (by simp [h])
      · rcases List.mem_cons.mp hr with h | h
        · exact Or.inl (by simp [h])
        · rcases ih r h with h₂ | ⟨q, hq, hrq⟩
          · exact Or.inl (by simp [h₂])
          · exact Or.inr ⟨q, by simp [hq], hrq⟩

/-- The uniqueness constraint restated on the heard-term column. -/
theorem heardUnique_iff_map (tb : DbTable) :
    heardUnique tb ↔
      (tb.rows.map (fun r => r.heard_term)).Pairwise
        (fun a b => nocaseEq a b = false) := by
  unfold heardUnique
  rw [List.pairwise_map]

/-- Claim C7: `addOrUpdateMedicalTerm` is an upsert keyed
case-insensitively (SQLite NOCASE) on the lowercased, trimmed heard
term: with no conflicting row it appends a fresh row with frequency 1
and returns its (AUTOINCREMENT) id; with a conflicting row it returns
that row's id, increments its frequency by 1 and overwrites
`correct_term`, `specialty`, `modality`, `variants` and `context_words`,
leaving all other rows untouched; it preserves the schema's
case-insensitive uniqueness of `heard_term`; and it preserves
non-negativity of `frequency`. -/
theorem C7_upsert (tb : DbTable) (heard correct : JStr) (sp mo : Option JStr)
    (vj cj : JStr) :
    ((∀ q ∈ tb.rows, nocaseEq q.heard_term (jsTrim (jsToLower heard)) = false) →
       (dbAddOrUpdateMedicalTerm tb heard correct sp mo vj cj).1 = tb.nextId
       ∧ (dbAddOrUpdateMedicalTerm tb heard correct sp mo vj cj).2.rows
           = tb.rows ++
             [{ id := tb.nextId, heard_term := jsTrim (jsToLower heard),
                correct_term := jsTrim correct, specialty := sp, modality := mo,
                frequency := 1, variants := vj, context_words := cj }])
    ∧ (∀ (pre : List DbRow) (q : DbRow) (post : List DbRow),
        tb.rows = pre ++ q :: post →
        (∀ p ∈ pre, nocaseEq p.heard_term (jsTrim (jsToLower heard)) = false) →
        nocaseEq q.heard_term (jsTrim (jsToLower heard)) = true →
        (dbAddOrUpdateMedicalTerm tb heard correct sp mo vj cj).1 = q.id
        ∧ (dbAddOrUpdateMedicalTerm tb heard correct sp mo vj cj).2.rows
            = pre ++ conflictUpdate (jsTrim correct) sp mo vj cj q :: post)
    ∧ (heardUnique tb →
        heardUnique (dbAddOrUpdateMedicalTerm tb heard correct sp mo vj cj).2)
    ∧ ((∀ q ∈ tb.rows, 0 ≤ q.frequency) →
        ∀ q ∈ (dbAddOrUpdateMedicalTerm tb heard correct sp mo vj cj).2.rows,
          0 ≤ q.frequency) := by
  refine ⟨?_, ?_, ?_, ?_⟩
  · intro hno
    unfold dbAddOrUpdateMedicalTerm
    dsimp only
    rw [upsertRows_no_conflict _ _ sp mo vj cj tb.rows hno]
    exact ⟨rfl, rfl⟩
  · intro pre q post hrows hpre hq
    unfold dbAddOrUpdateMedicalTerm
    dsimp only
    rw [hrows, upsertRows_found _ _ sp mo vj cj q post hq pre hpre]
    exact ⟨rfl, rfl⟩
  · intro hU
    unfold dbAddOrUpdateMedicalTerm
    dsimp only
    rcases hres : upsertRows (jsTrim (jsToLower heard)) (jsTrim correct)
        sp mo vj cj tb.rows with ⟨found, rows₁⟩
    cases found with
    | some i =>
        dsimp only
        rw [heardUnique_iff_map] at hU ⊢
        dsimp only
        have hh := upsertRows_heards (jsTrim (jsToLower heard)) (jsTrim correct)
          sp mo vj cj tb.rows
        rw [hres] at hh
        dsimp only at hh
        rw [hh]
        exact hU
    | none =>
        dsimp only
        have hno := upsertRows_fst_none (jsTrim (jsToLower heard)) (jsTrim correct)
          sp mo vj cj tb.rows (by rw [hres])
        rw [heardUnique_iff_map] at hU ⊢
        dsimp only
        rw [List.map_append, List.pairwise_append]
        refine ⟨hU, by simp, ?_⟩
        intro a ha b hb
        simp only [List.mem_map] at ha
        simp only [List.map_cons, List.map_nil, List.mem_singleton] at hb
        obtain ⟨qa, hqa, hqaa⟩ := ha
        subst hb
        rw [← hqaa]
        exact hno qa hqa
  · intro hpos
    unfold dbAddOrUpdateMedicalTerm
    dsimp only
    rcases hres : upsertRows (jsTrim (jsToLower heard)) (jsTrim correct)
        sp mo vj cj tb.rows with ⟨found, rows₁⟩
    cases found with
    | some i =>
        dsimp only
        intro q hq
        have hsh := upsertRows_shape (jsTrim (jsToLower heard)) (jsTrim correct)
          sp mo vj cj tb.rows q
        rw [hres] at hsh
        rcases hsh hq with h | ⟨q₂, hq₂, hq₂e⟩
        · exact hpos q h
        · have := hpos q₂ hq₂
          rw [hq₂e]
          unfold conflictUpdate
          dsimp only
          omega
    | none =>
        dsimp only
        intro q hq
        rcases List.mem_append.mp hq with h | h
        · exact hpos q h
        · simp only [List.mem_singleton] at h
          rw [h]
          norm_num

/-- Witness for C7 at a concrete no-conflict insert ("Foo " normalizes
to "foo", absent from the one-row table). -/
theorem C7_upsert_witness :
    (dbAddOrUpdateMedicalTerm sampleTable "Foo ".data "Bar".data none none
        "[]".data "[]".data).1 = 2 :=
  ((C7_upsert sampleTable "Foo ".data "Bar".data none none "[]".data
      "[]".data).1 (by decide)).1

/-! ### Claim C5 -/

/-- The substring of `u` at offsets `[a, b)`. -/
def sub (u : JStr) (a b : Nat) : JStr := (u.drop a).take (b - a)

/-- Locally correct replacement spans: every record's `textIndices`
names a well-formed span inside `u` whose content is the record's
`original` fragment. -/
def LocalSpans (u : JStr) (reps : List Replacement) : Prop :=
  ∀ r ∈ reps, ∀ a b, r.textIndices = some (a, b) →
    a ≤ b ∧ b ≤ u.length ∧ sub u a b = r.original

theorem localSpans_append_right (u t : JStr) (reps : List Replacement)
    (h : LocalSpans t reps) :
    LocalSpans (u ++ t) (reps.map (addOffset u.length)) := by
  intro r hr a b hab
  rcases List.mem_map.mp hr with ⟨r₀, hr₀, hre⟩
  subst hre
  unfold addOffset at hab
  dsimp only at hab
  cases hidx : r₀.textIndices with
  | none => rw [hidx] at hab; simp at hab
  | some p =>
      obtain ⟨a₀, b₀⟩ := p
      rw [hidx] at hab
      simp only [Option.map_some', Option.some.injEq, Prod.mk.injEq] at hab
      obtain ⟨ha, hb⟩ := hab
      subst ha
      subst hb
      obtain ⟨h₁, h₂, h₃⟩ := h r₀ hr₀ a₀ b₀ hidx
      refine ⟨by omega, by simp; omega, ?_⟩
      show sub (u ++ t) (a₀ + u.length) (b₀ + u.length) = r₀.original
      unfold sub
      rw [Nat.add_comm a₀ u.length, Nat.add_comm b₀ u.length, List.drop_append]
      rw [show u.length + b₀ - (u.length + a₀) = b₀ - a₀ by omega]
      exact h₃

theorem localSpans_append_left (u t : JStr) (reps : List Replacement)
    (h : LocalSpans u reps) :
    LocalSpans (u ++ t) (reps.map atBase) := by
  intro r hr a b hab
  rcases List.mem_map.mp hr with ⟨r₀, hr₀, hre⟩
  subst hre
  have hidx : r₀.textIndices = some (a, b) := hab
  obtain ⟨h₁, h₂, h₃⟩ := h r₀ hr₀ a b hidx
  refine ⟨h₁, by simp; omega, ?_⟩
  show sub (u ++ t) a b = r₀.original
  unfold sub at h₃ ⊢
  rw [List.drop_append_eq_append_drop,
    show a - u.length = 0 by omega, List.drop_zero,
    List.take_append_eq_append_take,
    show b - a - (List.drop a u).length = 0 by rw [List.length_drop]; omega,
    List.take_zero, List.append_nil]
  exact h₃

theorem processSegments_localSpans
    (f : JStr → Except Unit (JStr × List Replacement)) :
    ∀ (segs : List JStr) (out : JStr) (reps : List Replacement),
      (∀ u ∈ segs, ∀ pu rs, f u = .ok (pu, rs) → LocalSpans u rs) →
      processSegments f segs = .ok (out, reps) →
      LocalSpans segs.flatten reps := by
  intro segs
  induction segs with
  | nil =>
      intro out reps _ h
      unfold processSegments at h
      injection h with h
      rw [Prod.mk.injEq] at h
      obtain ⟨-, h₂⟩ := h
      intro r hr
      rw [← h₂] at hr
      simp at hr
  | cons u rest ih =>
      intro out reps hf h
      unfold processSegments at h
      cases hu : f u with
      | error e => rw [hu] at h; simp at h
      | ok p =>
          rw [hu] at h
          obtain ⟨pu, rs⟩ := p
          cases hrest : processSegments f rest with
          | error e => rw [hrest] at h; simp at h
          | ok q =>
              rw [hrest] at h
              obtain ⟨pt, rreps⟩ := q
              dsimp only at h
              injection h with h
              rw [Prod.mk.injEq] at h
              obtain ⟨-, h₂⟩ := h
              subst h₂
              have hleft : LocalSpans u rs := hf u (by simp) pu rs hu
              have hright : LocalSpans rest.flatten rreps :=
                ih pt rreps (fun v hv => hf v (by simp [hv])) hrest
              intro r hr a b hab
              rw [List.flatten_cons]
              rcases List.mem_append.mp hr with h₃ | h₃
              · exact localSpans_append_left u rest.flatten rs hleft r h₃ a b hab
              · exact localSpans_append_right u rest.flatten rreps hright r h₃ a b hab

theorem chunks_flatten_aux (n : Nat) :
    ∀ (L : Nat) (t : JStr), t.length ≤ L → (chunks n t).flatten = t := by
  intro L
  induction L with
  | zero =>
      intro t ht
      have : t = [] := List.length_eq_zero.mp (by omega)
      subst this
      rw [chunks.eq_def]
      rfl
  | succ L ih =>
      intro t ht
      cases t with
      | nil => rw [chunks.eq_def]; rfl
      | cons c rest =>
          rw [chunks.eq_def]
          dsimp only
          rw [List.flatten_cons,
            ih (rest.drop (n - 1)) (by simp only [List.length_drop]; simp at ht; omega)]
          rw [List.cons_append, List.take_append_drop]

theorem chunks_flatten (n : Nat) (t : JStr) : (chunks n t).flatten = t :=
  chunks_flatten_aux n t.length t le_rfl

/-- Claim C5: span correctness.  Given the segmentation property of the
sentence splitter (modelled from the spec: the sentence units
concatenate back to the input) and local span correctness of the
per-sentence processor, every `ReplacementRecord` returned by
`processText` has `sub text start end = original` — the substring of
the whole original input at `[start, end)` is the replaced fragment —
both on the sentence path and on the 10000-character block path taken
for inputs longer than 15000 characters. -/
theorem C5_span_correctness (cfg : SvcConfig) (split : JStr → List JStr)
    (proc : JStr → Option JStr → Option JStr → Except Unit (JStr × List Replacement))
    (st : SvcState) (hist : List Replacement) (o : RefreshOracles) (now : Nat)
    (text : JStr) (sp mo : Option JStr)
    (hsplit : ∀ u, (split u).flatten = u)
    (hproc : ∀ u pu rs, proc u sp mo = .ok (pu, rs) → LocalSpans u rs) :
    ∀ r ∈ (processText cfg split proc st hist o now text sp mo).1.2,
      ∀ a b, r.textIndices = some (a, b) → sub text a b = r.original := by
  intro r hr a b hab
  rw [processText_fst] at hr
  split at hr
  · simp at hr
  · cases hcore : processTextCore split proc text sp mo with
    | error e => rw [hcore] at hr; simp at hr
    | ok p =>
        rw [hcore] at hr
        obtain ⟨pt, reps⟩ := p
        dsimp only at hr
        unfold processTextCore at hcore
        split at hcore
        · -- block path
          unfold processLargeText at hcore
          have hinner :
              ∀ block ∈ chunks 10000 text, ∀ pb rs,
                processSegments (fun u => proc u sp mo) (split block) = .ok (pb, rs) →
                LocalSpans block rs := by
            intro block _ pb rs hb
            have := processSegments_localSpans (fun u => proc u sp mo) (split block)
              pb rs (fun u _ pu rs₂ hpu => hproc u pu rs₂ hpu) hb
            rwa [hsplit block] at this
          have hmain := processSegments_localSpans
            (fun block => processSegments (fun u => proc u sp mo) (split block))
            (chunks 10000 text) pt reps hinner hcore
          rw [chunks_flatten] at hmain
          exact (hmain r hr a b hab).2.2
        · -- sentence path
          have hmain := processSegments_localSpans (fun u => proc u sp mo)
            (split text) pt reps (fun u _ pu rs₂ hpu => hproc u pu rs₂ hpu) hcore
          rw [hsplit text] at hmain
          exact (hmain r hr a b hab).2.2

/-- A per-sentence processor returning the sentence unchanged with one
full-span replacement record. -/
def sampleProcSpan :
    JStr → Option JStr → Option JStr → Except Unit (JStr × List Replacement) :=
  fun u _ _ =>
    .ok (u, [{ textIndices := some (0, u.length), original := u,
               replacement := u, originalFullTextOffset := 0 }])

theorem sampleProcSpan_local (sp mo : Option JStr) :
    ∀ u pu rs, sampleProcSpan u sp mo = .ok (pu, rs) → LocalSpans u rs := by
  intro u pu rs hpu
  unfold sampleProcSpan at hpu
  injection hpu with hpu
  rw [Prod.mk.injEq] at hpu
  obtain ⟨-, h₂⟩ := hpu
  intro r hr a b hab
  rw [← h₂] at hr
  simp only [List.mem_singleton] at hr
  subst hr
  simp only [Option.some.injEq, Prod.mk.injEq] at hab
  obtain ⟨ha, hb⟩ := hab
  subst ha
  subst hb
  exact ⟨Nat.zero_le _, le_refl _, by simp [sub]⟩

/-- Witness for C5 at a concrete two-character input whose single
replacement record spans the whole text. -/
theorem C5_span_correctness_witness :
    sub "ab".data 0 2
      = (⟨some (0, 2), "ab".data, "ab".data, 0⟩ : Replacement).original :=
  C5_span_correctness sampleCfg sampleSplit sampleProcSpan sampleSt []
    badFetchOracles 0 "ab".data none none (fun u => by simp [sampleSplit])
    (sampleProcSpan_local none none)
    ⟨some (0, 2), "ab".data, "ab".data, 0⟩ (by decide) 0 2 rfl

end Signia
